import Mathlib

/-!
Shallow embedding of `mnist_fid.py` (FID scoring pipeline).

The source streams image batches through a frozen feature extractor
(`get_activations`), reduces the feature matrix to Gaussian moments
(`calculate_activation_statistics`), and computes the Fréchet distance between
two moment pairs (`calculate_frechet_distance`), with numerical stabilization
around the external `scipy.linalg.sqrtm` call.

Modelling conventions:
* Scalars are `ℚ`.  IEEE non-finiteness (NaN/inf) is modelled by an explicit
  entrywise finiteness flag on the output of `sqrtm` and a finiteness flag on
  the returned score; a `false` flag marks a value that would be non-finite in
  floating point.
* `scipy.linalg.sqrtm` is an external collaborator; it is modelled as an
  oracle parameter `sq` returning a possibly-complex matrix (`SqrtmOut`).
* The feature extractor / generator / imputer are external models; they are
  modelled as per-sample functions producing feature rows.
* numpy arrays are modelled as `List` (row-major) or as `Matrix (Fin n)`.
-/

namespace MisganFid

/-- Result of the external `scipy.linalg.sqrtm` call: a possibly complex
matrix with real part `re` and imaginary part `im`, an entrywise finiteness
flag `fin` (`fin i j = false` models a NaN/inf entry, tested by
`np.isfinite`), and the dtype flag `isComplex` tested by `np.iscomplexobj`. -/
structure SqrtmOut (n : ℕ) where
  isComplex : Bool
  re : Matrix (Fin n) (Fin n) ℚ
  im : Matrix (Fin n) (Fin n) ℚ
  fin : Matrix (Fin n) (Fin n) Bool

/-- `np.isfinite(covmean).all()` from `mnist_fid.py` line 102. -/
def allFiniteB {n : ℕ} (s : SqrtmOut n) : Bool :=
  decide (∀ i j, s.fin i j = true)

/-- Finiteness of the diagonal of the matrix square root: this is what
determines whether the returned scalar score (a function of the trace)
is finite. -/
def diagFiniteB {n : ℕ} (s : SqrtmOut n) : Bool :=
  decide (∀ i, s.fin i i = true)

/-- `np.allclose(np.diagonal(covmean).imag, 0, atol=1e-3)` from line 111:
with reference value `0` the relative-tolerance term vanishes, so the test is
`|imag| ≤ 1e-3` on every diagonal entry. -/
def allcloseDiagImB {n : ℕ} (s : SqrtmOut n) : Bool :=
  decide (∀ i, |s.im i i| ≤ 1 / 1000)

/-- The absolute value of a rational, as a nonnegative rational. -/
def qabs (q : ℚ) : NNRat := ⟨|q|, abs_nonneg q⟩

/-- `np.max(np.abs(covmean.imag))` from line 112: the maximum imaginary
magnitude over the whole matrix (not just the diagonal).  Computed as a
`Finset.sup` over nonnegative rationals (the empty case cannot arise for a
matrix with at least one entry, and all values are nonnegative, so the `0`
bottom element does not change the maximum). -/
def maxAbsIm {n : ℕ} (s : SqrtmOut n) : ℚ :=
  ((Finset.univ.sup fun i => Finset.univ.sup fun j => qabs (s.im i j) : NNRat) : ℚ)

/-- The error raised by `calculate_frechet_distance`:
`raise ValueError(f'Imaginary component {m}')` at line 113. -/
inductive FidError where
  | imaginaryComponent (m : ℚ)
deriving DecidableEq

/-- The scalar returned by `calculate_frechet_distance`, with a flag recording
whether the floating-point result would be finite (`finite = false` models a
NaN/inf score caused by non-finite diagonal entries of the square root). -/
structure FidVal where
  val : ℚ
  finite : Bool
deriving DecidableEq

/-- `diff.dot(diff)` for vectors: `∑ i, v i * w i`. -/
def vdot {n : ℕ} (v w : Fin n → ℚ) : ℚ := ∑ i, v i * w i

/-- Lines 98 and 118-119: the returned scalar
`diff.dot(diff) + np.trace(sigma1) + np.trace(sigma2) - 2 * tr_covmean`,
where `covmeanRe` is the (real part of the) matrix square root actually used. -/
def fidFormula {n : ℕ} (mu1 mu2 : Fin n → ℚ)
    (sigma1 sigma2 : Matrix (Fin n) (Fin n) ℚ)
    (covmeanRe : Matrix (Fin n) (Fin n) ℚ) : ℚ :=
  vdot (mu1 - mu2) (mu1 - mu2) + Matrix.trace sigma1 + Matrix.trace sigma2 -
    2 * Matrix.trace covmeanRe

/-- Lines 106-107: `offset = np.eye(sigma1.shape[0]) * eps` and the product
`(sigma1 + offset).dot(sigma2 + offset)` used for the regularized retry. -/
def regularized {n : ℕ} (sigma1 sigma2 : Matrix (Fin n) (Fin n) ℚ) (eps : ℚ) :
    Matrix (Fin n) (Fin n) ℚ :=
  (sigma1 + eps • (1 : Matrix (Fin n) (Fin n) ℚ)) *
    (sigma2 + eps • (1 : Matrix (Fin n) (Fin n) ℚ))

/-- Lines 100-107: compute `sqrtm(sigma1.dot(sigma2))`; if some entry is
non-finite, recompute once on the regularized product.  The retried value is
used unconditionally (there is no second finiteness check in the source). -/
def chooseCovmean {n : ℕ} (sq : Matrix (Fin n) (Fin n) ℚ → SqrtmOut n)
    (sigma1 sigma2 : Matrix (Fin n) (Fin n) ℚ) (eps : ℚ) : SqrtmOut n :=
  let c := sq (sigma1 * sigma2)
  if allFiniteB c then c else sq (regularized sigma1 sigma2 eps)

/-- Lines 109-119: the complex-residue handling and the final formula, applied
to the already-chosen square root `covmean`.  If the result is complex and some
diagonal imaginary entry exceeds the tolerance, raise `ValueError` carrying the
maximum imaginary magnitude of the whole matrix; otherwise continue on the real
part.  The `finite` flag of the result records whether the diagonal of
`covmean` (hence the trace, hence the score) is finite. -/
def finishFid {n : ℕ} (mu1 mu2 : Fin n → ℚ)
    (sigma1 sigma2 : Matrix (Fin n) (Fin n) ℚ) (covmean : SqrtmOut n) :
    Except FidError FidVal :=
  if covmean.isComplex then
    if allcloseDiagImB covmean then
      Except.ok ⟨fidFormula mu1 mu2 sigma1 sigma2 covmean.re, diagFiniteB covmean⟩
    else
      Except.error (FidError.imaginaryComponent (maxAbsIm covmean))
  else
    Except.ok ⟨fidFormula mu1 mu2 sigma1 sigma2 covmean.re, diagFiniteB covmean⟩

/-- `calculate_frechet_distance(mu1, sigma1, mu2, sigma2, eps)`, lines 65-119,
parametrized by the `sqrtm` oracle `sq`.  The shape assertions of lines 93-96
hold by typing (all inputs live at dimension `n`). -/
def calculate_frechet_distance {n : ℕ}
    (sq : Matrix (Fin n) (Fin n) ℚ → SqrtmOut n)
    (mu1 : Fin n → ℚ) (sigma1 : Matrix (Fin n) (Fin n) ℚ)
    (mu2 : Fin n → ℚ) (sigma2 : Matrix (Fin n) (Fin n) ℚ)
    (eps : ℚ) : Except FidError FidVal :=
  finishFid mu1 mu2 sigma1 sigma2 (chooseCovmean sq sigma1 sigma2 eps)

/-- Transpose a `SqrtmOut` componentwise.  The principal matrix square root
commutes with transposition (`sqrtm(Mᵀ) = sqrtm(M)ᵀ`), which is the property
of the external `sqrtm` assumed for the symmetry claim. -/
def SqrtmOut.transposeOut {n : ℕ} (s : SqrtmOut n) : SqrtmOut n :=
  ⟨s.isComplex, s.re.transpose, s.im.transpose, s.fin.transpose⟩

/-! ### Batch activation collector (`get_activations`, lines 23-62) -/

/-- The slice assignment `pred_arr[start:end] = batch_feature` (line 57) on a
row list: rows `[start, start + seg.length)` are replaced by `seg`. -/
def overwriteFrom (arr : List (List ℚ)) (start : ℕ) (seg : List (List ℚ)) :
    List (List ℚ) :=
  arr.take start ++ seg ++ arr.drop (start + seg.length)

/-- One iteration of the loop at lines 43-57: allocate the output buffer on
the first batch (`np.empty((images, d))`, whose unspecified contents are
modelled by empty rows — they are never read by a caller that fills the
buffer exactly), write the batch features at `[start, start + batch_size)`,
and advance `end`. -/
def accumStep (images : ℕ) (st : Option (List (List ℚ)) × ℕ)
    (bf : List (List ℚ)) : Option (List (List ℚ)) × ℕ :=
  let arr := match st.1 with
    | none => List.replicate images ([] : List ℚ)
    | some a => a
  (some (overwriteFrom arr st.2 bf), st.2 + bf.length)

/-- The accumulation loop of `get_activations` over the per-batch feature
lists, starting from `pred_arr = None` and `end = 0`, returning `pred_arr`. -/
def accumulateBatches (images : ℕ) (featBatches : List (List (List ℚ))) :
    Option (List (List ℚ)) :=
  (featBatches.foldl (accumStep images) (none, 0)).1

/-- `get_activations(image_generator, images, model)`, lines 23-62: the
extractor (model + feature-layer read-out + reshape) is the per-sample
function `f`; each batch contributes `batch.map f` rows. -/
def get_activations {α : Type} (f : α → List ℚ) (images : ℕ)
    (batches : List (List α)) : Option (List (List ℚ)) :=
  accumulateBatches images (batches.map fun b => b.map f)

/-! ### Gaussian moment estimator
(`calculate_activation_statistics`, lines 122-146) -/

/-- `np.mean(act, axis=0)` (line 141): columnwise arithmetic mean. -/
def np_mean {N D : ℕ} (X : Fin N → Fin D → ℚ) : Fin D → ℚ :=
  fun d => (∑ i, X i d) / (N : ℚ)

/-- `np.cov(act, rowvar=False)` (line 142): sample covariance of the columns
with the default `ddof = 1` normalization `N - 1`. -/
def np_cov {N D : ℕ} (X : Fin N → Fin D → ℚ) : Fin D → Fin D → ℚ :=
  fun j k =>
    (∑ i, (X i j - np_mean X j) * (X i k - np_mean X k)) / ((N : ℚ) - 1)

/-- `np.average(act, axis=0, weights=weight)` (line 144): weighted columnwise
mean `∑ w i * X i d / ∑ w i`. -/
def np_average {N D : ℕ} (X : Fin N → Fin D → ℚ) (w : Fin N → ℚ) :
    Fin D → ℚ :=
  fun d => (∑ i, w i * X i d) / (∑ i, w i)

/-- The normalization factor used by `np.cov(..., aweights=w)` with the
default `ddof = 1`: `v1 - v2 / v1` where `v1 = ∑ w` and `v2 = ∑ w²`. -/
def covFact {N : ℕ} (w : Fin N → ℚ) : ℚ :=
  (∑ i, w i) - (∑ i, w i * w i) / (∑ i, w i)

/-- `np.cov(act, rowvar=False, aweights=weight)` (line 145): weighted
covariance, centred at the weighted mean and normalized by `covFact`. -/
def np_cov_aweights {N D : ℕ} (X : Fin N → Fin D → ℚ) (w : Fin N → ℚ) :
    Fin D → Fin D → ℚ :=
  fun j k =>
    (∑ i, w i * ((X i j - np_average X w j) * (X i k - np_average X w k))) /
      covFact w

/-- The moment pair computed by `calculate_activation_statistics` (lines
139-146) from an already-collected feature matrix `X`: the unweighted
`np.mean`/`np.cov` when `weight is None`, the weighted
`np.average`/`np.cov(aweights=...)` otherwise. -/
def calculate_activation_statistics_moments {N D : ℕ}
    (X : Fin N → Fin D → ℚ) (weight : Option (Fin N → ℚ)) :
    (Fin D → ℚ) × (Fin D → Fin D → ℚ) :=
  match weight with
  | none => (np_mean X, np_cov X)
  | some w => (np_average X w, np_cov_aweights X w)

/-! ### Reference statistics cache (`MNISTModel.__init__`, lines 157-171) -/

/-- The cache-loading logic of lines 157-171: `np.load(stats_file)` inside a
`try` whose only handler is `except FileNotFoundError`.  A present file is
modelled by `some s`; a missing file by `none`.  Any present pair is used
as-is; only a missing file triggers recomputation. -/
def loadOrComputeStats (stored : Option (List ℚ × List (List ℚ)))
    (computed : List ℚ × List (List ℚ)) : List ℚ × List (List ℚ) :=
  match stored with
  | some s => s
  | none => computed

/-- Structural validity of a persisted moment pair for feature dimension `d`:
mean of length `d` and a `d × d` covariance. -/
def statsValid (d : ℕ) (s : List ℚ × List (List ℚ)) : Prop :=
  s.1.length = d ∧ s.2.length = d ∧ ∀ row ∈ s.2, row.length = d

/-! ### Scoring facade (`data_generator_fid` lines 187-215,
`imputer_fid` lines 218-243) -/

/-- The `while count < n_samples` loop of `data_generator_fid` (lines
194-210), with the per-iteration feature batch given by `feats` (iteration
`i` runs the generator on fresh noise of `bs` rows).  Fuel-indexed structural
recursion: fuel `n` suffices whenever `0 < bs`, since `count` grows by at
least one per iteration.  When `count + bs > n_samples` the final batch is
truncated (`features[count:] = batch_feature[:batch_size]`, line 206);
otherwise the whole batch is written (line 208).  Sequential exact-fit slice
writes into the fresh `np.empty((n_samples, d))` buffer are modelled by
concatenation. -/
def dgGo (bs n : ℕ) (feats : ℕ → List (List ℚ)) :
    ℕ → ℕ → ℕ → List (List ℚ) → List (List ℚ)
  | 0, _, _, acc => acc
  | fuel + 1, i, count, acc =>
    if count < n then
      if n < count + bs then acc ++ (feats i).take (n - count)
      else dgGo bs n feats fuel (i + 1) (count + bs) (acc ++ feats i)
    else acc

/-- The feature matrix accumulated by `data_generator_fid` before scoring. -/
def data_generator_fid_features (bs n : ℕ) (feats : ℕ → List (List ℚ)) :
    List (List ℚ) :=
  dgGo bs n feats n 0 0 []

/-- The concatenation of the first `K` generated feature batches starting at
iteration `i`. -/
def batchJoin (feats : ℕ → List (List ℚ)) (i K : ℕ) : List (List ℚ) :=
  ((List.range K).map fun k => feats (i + k)).flatten

/-- `DataLoader(data, batch_size=bs, drop_last=True)` (line 221): the
`⌊|data| / bs⌋` full consecutive chunks of size `bs`; a final partial chunk
is dropped. -/
def dataLoaderBatches {α : Type} (bs : ℕ) (data : List α) : List (List α) :=
  (List.range (data.length / bs)).map fun k => (data.drop (k * bs)).take bs

/-- The feature matrix accumulated by `imputer_fid` (lines 218-243):
`n_samples = len(data_loader) * batch_size` rows, filled batch by batch with
the features of the imputed samples (`g` is the per-sample imputation +
feature extraction map). -/
def imputer_fid_features {α : Type} (bs : ℕ) (g : α → List ℚ)
    (data : List α) : Option (List (List ℚ)) :=
  accumulateBatches (data.length / bs * bs)
    ((dataLoaderBatches bs data).map fun b => b.map g)

/-! ### Concrete instances used by witnesses and counterexamples -/

/-- The constant `1` (1×1) matrix used as a toy covariance. -/
def sigW : Matrix (Fin 1) (Fin 1) ℚ := Matrix.of fun _ _ => 1

/-- A `sqrtm` oracle returning a finite real result (the constant-one
matrix). -/
def sqReal1 : Matrix (Fin 1) (Fin 1) ℚ → SqrtmOut 1 :=
  fun _ => ⟨false, Matrix.of fun _ _ => 1, Matrix.of fun _ _ => 0,
    Matrix.of fun _ _ => true⟩

/-- A `sqrtm` oracle returning a complex result with a negligible (≤ 1e-3)
diagonal imaginary part. -/
def sqCplxSmall : Matrix (Fin 1) (Fin 1) ℚ → SqrtmOut 1 :=
  fun _ => ⟨true, Matrix.of fun _ _ => 1, Matrix.of fun _ _ => 1 / 2000,
    Matrix.of fun _ _ => true⟩

/-- A `sqrtm` oracle returning a complex result with a large (> 1e-3)
imaginary part. -/
def sqCplxBig : Matrix (Fin 1) (Fin 1) ℚ → SqrtmOut 1 :=
  fun _ => ⟨true, Matrix.of fun _ _ => 1, Matrix.of fun _ _ => 1 / 2,
    Matrix.of fun _ _ => true⟩

/-- A `sqrtm` oracle whose every output entry is non-finite (real NaN), on
every input: both the first attempt and the regularized retry fail. -/
def sqBad : Matrix (Fin 1) (Fin 1) ℚ → SqrtmOut 1 :=
  fun _ => ⟨false, Matrix.of fun _ _ => 0, Matrix.of fun _ _ => 0,
    Matrix.of fun _ _ => false⟩

/-- A `sqrtm` oracle that fails (non-finite) on the plain product `[[1]]` but
succeeds with the real value `[[2]]` on the regularized product `[[4]]`
(which is `regularized sigW sigW 1`). -/
def sqRetryOk : Matrix (Fin 1) (Fin 1) ℚ → SqrtmOut 1 :=
  fun M =>
    if M 0 0 = 4 then
      ⟨false, Matrix.of fun _ _ => 2, Matrix.of fun _ _ => 0,
        Matrix.of fun _ _ => true⟩
    else
      ⟨false, Matrix.of fun _ _ => 0, Matrix.of fun _ _ => 0,
        Matrix.of fun _ _ => false⟩

/-- A `sqrtm` oracle that fails (non-finite) on the plain product `[[1]]` and
returns a badly complex result on the regularized product `[[4]]`. -/
def sqRetryCplx : Matrix (Fin 1) (Fin 1) ℚ → SqrtmOut 1 :=
  fun M =>
    if M 0 0 = 4 then
      ⟨true, Matrix.of fun _ _ => 2, Matrix.of fun _ _ => 7,
        Matrix.of fun _ _ => true⟩
    else
      ⟨false, Matrix.of fun _ _ => 0, Matrix.of fun _ _ => 0,
        Matrix.of fun _ _ => false⟩

/-- An invalid persisted moment pair (dimension 1). -/
def statsBad : List ℚ × List (List ℚ) := ([0], [[0]])

/-- A valid dimension-2 moment pair. -/
def statsGood : List ℚ × List (List ℚ) := ([0, 0], [[1, 0], [0, 1]])

/-! ## Theorems -/

theorem diagFiniteB_of_allFiniteB {n : ℕ} {s : SqrtmOut n}
    (h : allFiniteB s = true) : diagFiniteB s = true := by
  simp only [allFiniteB, decide_eq_true_eq] at h
  simp only [diagFiniteB, decide_eq_true_eq]
  exact fun i => h i i

/-! Evaluation lemmas for the concrete oracles. -/

theorem allFiniteB_sqReal1 (M : Matrix (Fin 1) (Fin 1) ℚ) :
    allFiniteB (sqReal1 M) = true := by
  simp [allFiniteB, sqReal1]

theorem allFiniteB_sqCplxSmall (M : Matrix (Fin 1) (Fin 1) ℚ) :
    allFiniteB (sqCplxSmall M) = true := by
  simp [allFiniteB, sqCplxSmall]

theorem allFiniteB_sqCplxBig (M : Matrix (Fin 1) (Fin 1) ℚ) :
    allFiniteB (sqCplxBig M) = true := by
  simp [allFiniteB, sqCplxBig]

theorem allFiniteB_sqBad (M : Matrix (Fin 1) (Fin 1) ℚ) :
    allFiniteB (sqBad M) = false := by
  simp only [allFiniteB, sqBad, Matrix.of_apply, decide_eq_false_iff_not]
  intro h
  exact Bool.false_ne_true (h 0 0)

theorem allcloseDiagImB_sqCplxSmall (M : Matrix (Fin 1) (Fin 1) ℚ) :
    allcloseDiagImB (sqCplxSmall M) = true := by
  simp only [allcloseDiagImB, sqCplxSmall, Matrix.of_apply, decide_eq_true_eq]
  intro i
  rw [abs_of_nonneg (by norm_num)]
  norm_num

theorem allcloseDiagImB_sqCplxBig (M : Matrix (Fin 1) (Fin 1) ℚ) :
    allcloseDiagImB (sqCplxBig M) = false := by
  simp only [allcloseDiagImB, sqCplxBig, Matrix.of_apply,
    decide_eq_false_iff_not]
  intro h
  have h0 := h 0
  rw [abs_of_nonneg (by norm_num)] at h0
  norm_num at h0

theorem sigW_prod_entry : (sigW * sigW) 0 0 = 1 := by
  simp [sigW, Matrix.mul_apply, Fin.sum_univ_one]

theorem reg_sigW_entry : regularized sigW sigW 1 0 0 = 4 := by
  simp only [regularized, Matrix.mul_apply, Fin.sum_univ_one, Matrix.add_apply,
    Matrix.smul_apply, Matrix.one_apply_eq, sigW, Matrix.of_apply, smul_eq_mul]
  norm_num

theorem sqRetryOk_first :
    sqRetryOk (sigW * sigW) =
      ⟨false, Matrix.of fun _ _ => 0, Matrix.of fun _ _ => 0,
        Matrix.of fun _ _ => false⟩ := by
  unfold sqRetryOk
  rw [if_neg]
  rw [sigW_prod_entry]
  norm_num

theorem sqRetryOk_retry :
    sqRetryOk (regularized sigW sigW 1) =
      ⟨false, Matrix.of fun _ _ => 2, Matrix.of fun _ _ => 0,
        Matrix.of fun _ _ => true⟩ := by
  unfold sqRetryOk
  rw [if_pos]
  rw [reg_sigW_entry]

theorem sqRetryCplx_first :
    sqRetryCplx (sigW * sigW) =
      ⟨false, Matrix.of fun _ _ => 0, Matrix.of fun _ _ => 0,
        Matrix.of fun _ _ => false⟩ := by
  unfold sqRetryCplx
  rw [if_neg]
  rw [sigW_prod_entry]
  norm_num

theorem sqRetryCplx_retry :
    sqRetryCplx (regularized sigW sigW 1) =
      ⟨true, Matrix.of fun _ _ => 2, Matrix.of fun _ _ => 7,
        Matrix.of fun _ _ => true⟩ := by
  unfold sqRetryCplx
  rw [if_pos]
  rw [reg_sigW_entry]

theorem allFiniteB_sqRetryOk_first :
    allFiniteB (sqRetryOk (sigW * sigW)) = false := by
  rw [sqRetryOk_first]
  simp only [allFiniteB, Matrix.of_apply, decide_eq_false_iff_not]
  intro h
  exact Bool.false_ne_true (h 0 0)

theorem allFiniteB_sqRetryCplx_first :
    allFiniteB (sqRetryCplx (sigW * sigW)) = false := by
  rw [sqRetryCplx_first]
  simp only [allFiniteB, Matrix.of_apply, decide_eq_false_iff_not]
  intro h
  exact Bool.false_ne_true (h 0 0)

theorem isComplex_sqRetryCplx_retry :
    (sqRetryCplx (regularized sigW sigW 1)).isComplex = true := by
  rw [sqRetryCplx_retry]

theorem allcloseDiagImB_sqRetryCplx_retry :
    allcloseDiagImB (sqRetryCplx (regularized sigW sigW 1)) = false := by
  rw [sqRetryCplx_retry]
  simp only [allcloseDiagImB, Matrix.of_apply, decide_eq_false_iff_not]
  intro h
  have h0 := h 0
  rw [abs_of_nonneg (by norm_num)] at h0
  norm_num at h0

/-- C1: when the matrix square root of `cov1 · cov2` is finite and real (the
nominal case, in which neither the regularization retry nor the
complex-residue handling engages), the distance function returns
`||mean1 - mean2||² + trace(cov1) + trace(cov2) - 2·trace(sqrtm(cov1·cov2))`
with a finite score. -/
theorem claim1_distance_formula {n : ℕ}
    (sq : Matrix (Fin n) (Fin n) ℚ → SqrtmOut n)
    (mu1 mu2 : Fin n → ℚ) (sigma1 sigma2 : Matrix (Fin n) (Fin n) ℚ)
    (eps : ℚ)
    (hfin : allFiniteB (sq (sigma1 * sigma2)) = true)
    (hreal : (sq (sigma1 * sigma2)).isComplex = false) :
    calculate_frechet_distance sq mu1 sigma1 mu2 sigma2 eps =
      Except.ok ⟨fidFormula mu1 mu2 sigma1 sigma2 (sq (sigma1 * sigma2)).re,
        true⟩ := by
  unfold calculate_frechet_distance chooseCovmean finishFid
  simp [hfin, hreal, diagFiniteB_of_allFiniteB hfin]

/-- Witness for C1: oracle `sqReal1` on unit covariances and means `3`, `0`. -/
theorem claim1_witness :
    allFiniteB (sqReal1 (sigW * sigW)) = true ∧
    (sqReal1 (sigW * sigW)).isComplex = false ∧
    calculate_frechet_distance sqReal1 (fun _ => 3) sigW (fun _ => 0) sigW
        (1 / 1000000) =
      Except.ok ⟨fidFormula (fun _ => 3) (fun _ => 0) sigW sigW
        (sqReal1 (sigW * sigW)).re, true⟩ :=
  ⟨allFiniteB_sqReal1 _, rfl,
    claim1_distance_formula sqReal1 _ _ _ _ _ (allFiniteB_sqReal1 _) rfl⟩

/-- C2: if the (finite) square root of `cov1 · cov2` is complex, then when
every diagonal imaginary entry is within 1e-3 of zero the imaginary part is
discarded and the computation continues on the real part, and when some
diagonal imaginary entry exceeds the tolerance the call fails with an error
carrying the maximum imaginary magnitude observed over the whole matrix. -/
theorem claim2_complex_residue {n : ℕ}
    (sq : Matrix (Fin n) (Fin n) ℚ → SqrtmOut n)
    (mu1 mu2 : Fin n → ℚ) (sigma1 sigma2 : Matrix (Fin n) (Fin n) ℚ)
    (eps : ℚ)
    (hfin : allFiniteB (sq (sigma1 * sigma2)) = true)
    (hcplx : (sq (sigma1 * sigma2)).isComplex = true) :
    (allcloseDiagImB (sq (sigma1 * sigma2)) = true →
      calculate_frechet_distance sq mu1 sigma1 mu2 sigma2 eps =
        Except.ok ⟨fidFormula mu1 mu2 sigma1 sigma2 (sq (sigma1 * sigma2)).re,
          diagFiniteB (sq (sigma1 * sigma2))⟩) ∧
    (allcloseDiagImB (sq (sigma1 * sigma2)) = false →
      calculate_frechet_distance sq mu1 sigma1 mu2 sigma2 eps =
        Except.error (FidError.imaginaryComponent
          (maxAbsIm (sq (sigma1 * sigma2))))) := by
  constructor <;> intro hclose <;>
    · unfold calculate_frechet_distance chooseCovmean finishFid
      simp [hfin, hcplx, hclose]

/-- Witness for C2: a negligible-imaginary oracle continues on the real part;
a large-imaginary oracle fails with the maximum imaginary magnitude. -/
theorem claim2_witness :
    calculate_frechet_distance sqCplxSmall (fun _ => 0) sigW (fun _ => 0) sigW
        (1 / 1000000) =
      Except.ok ⟨fidFormula (fun _ => 0) (fun _ => 0) sigW sigW
        (sqCplxSmall (sigW * sigW)).re,
        diagFiniteB (sqCplxSmall (sigW * sigW))⟩ ∧
    calculate_frechet_distance sqCplxBig (fun _ => 0) sigW (fun _ => 0) sigW
        (1 / 1000000) =
      Except.error (FidError.imaginaryComponent
        (maxAbsIm (sqCplxBig (sigW * sigW)))) :=
  ⟨(claim2_complex_residue sqCplxSmall _ _ _ _ _ (allFiniteB_sqCplxSmall _)
      rfl).1 (allcloseDiagImB_sqCplxSmall _),
   (claim2_complex_residue sqCplxBig _ _ _ _ _ (allFiniteB_sqCplxBig _)
      rfl).2 (allcloseDiagImB_sqCplxBig _)⟩

/-- C3: if some entry of the first square root is non-finite, the computation
is redone exactly once on the product of the eps-regularized covariances, and
the whole call depends on at most those two square-root evaluations (no loop:
any oracle agreeing on the plain and the regularized products produces the
same result). -/
theorem claim3_retry_once {n : ℕ}
    (sq : Matrix (Fin n) (Fin n) ℚ → SqrtmOut n)
    (mu1 mu2 : Fin n → ℚ) (sigma1 sigma2 : Matrix (Fin n) (Fin n) ℚ)
    (eps : ℚ)
    (hnf : allFiniteB (sq (sigma1 * sigma2)) = false) :
    calculate_frechet_distance sq mu1 sigma1 mu2 sigma2 eps =
      finishFid mu1 mu2 sigma1 sigma2 (sq (regularized sigma1 sigma2 eps)) ∧
    (∀ sq2 : Matrix (Fin n) (Fin n) ℚ → SqrtmOut n,
      sq2 (sigma1 * sigma2) = sq (sigma1 * sigma2) →
      sq2 (regularized sigma1 sigma2 eps) = sq (regularized sigma1 sigma2 eps) →
      calculate_frechet_distance sq2 mu1 sigma1 mu2 sigma2 eps =
        calculate_frechet_distance sq mu1 sigma1 mu2 sigma2 eps) := by
  constructor
  · unfold calculate_frechet_distance chooseCovmean
    simp [hnf]
  · intro sq2 h1 h2
    unfold calculate_frechet_distance chooseCovmean
    rw [h1, h2]

/-- Witness for C3: the oracle `sqRetryOk` is non-finite on the plain product
`[[1]]` and the call is redone on the regularized product `[[4]]`. -/
theorem claim3_witness :
    allFiniteB (sqRetryOk (sigW * sigW)) = false ∧
    calculate_frechet_distance sqRetryOk (fun _ => 0) sigW (fun _ => 0) sigW 1 =
      finishFid (fun _ => 0) (fun _ => 0) sigW sigW
        (sqRetryOk (regularized sigW sigW 1)) :=
  ⟨allFiniteB_sqRetryOk_first,
   (claim3_retry_once sqRetryOk _ _ _ _ _ allFiniteB_sqRetryOk_first).1⟩

/-- C4 counterexample: with a square root that is non-finite (real) on both
the plain and the regularized product, the call returns `Except.ok` carrying
a non-finite score (`finite = false`) — it is not escalated to an error. -/
theorem claim4_counterexample :
    allFiniteB (sqBad (regularized sigW sigW (1 / 1000000))) = false ∧
    calculate_frechet_distance sqBad (fun _ => 0) sigW (fun _ => 0) sigW
      (1 / 1000000) = Except.ok ⟨2, false⟩ := by
  refine ⟨allFiniteB_sqBad _, ?_⟩
  have hc : chooseCovmean sqBad sigW sigW (1 / 1000000) =
      sqBad (regularized sigW sigW (1 / 1000000)) := by
    unfold chooseCovmean
    simp [allFiniteB_sqBad]
  unfold calculate_frechet_distance
  rw [hc]
  unfold finishFid
  simp only [sqBad, diagFiniteB, allcloseDiagImB, Matrix.of_apply,
    Bool.false_eq_true, if_false]
  refine congrArg Except.ok ?_
  refine congrArg₂ FidVal.mk ?_ ?_
  · unfold fidFormula vdot
    simp [sigW, Matrix.trace, Matrix.diag, Fin.sum_univ_one, Matrix.of_apply]
    norm_num
  · simp

/-- C4 (amended): a singular covariance product is retried exactly once via
epsilon-regularization; if the retried square root is complex with a
non-negligible diagonal imaginary part the call escalates to a
NumericalInstability error, but if the retried square root is real its value
is returned even when still non-finite (the non-finite score propagates,
flagged by `finite = false` when the diagonal is non-finite). -/
theorem claim4_amended {n : ℕ}
    (sq : Matrix (Fin n) (Fin n) ℚ → SqrtmOut n)
    (mu1 mu2 : Fin n → ℚ) (sigma1 sigma2 : Matrix (Fin n) (Fin n) ℚ)
    (eps : ℚ)
    (hnf : allFiniteB (sq (sigma1 * sigma2)) = false) :
    ((sq (regularized sigma1 sigma2 eps)).isComplex = true →
      allcloseDiagImB (sq (regularized sigma1 sigma2 eps)) = false →
      calculate_frechet_distance sq mu1 sigma1 mu2 sigma2 eps =
        Except.error (FidError.imaginaryComponent
          (maxAbsIm (sq (regularized sigma1 sigma2 eps))))) ∧
    ((sq (regularized sigma1 sigma2 eps)).isComplex = false →
      calculate_frechet_distance sq mu1 sigma1 mu2 sigma2 eps =
        Except.ok ⟨fidFormula mu1 mu2 sigma1 sigma2
            (sq (regularized sigma1 sigma2 eps)).re,
          diagFiniteB (sq (regularized sigma1 sigma2 eps))⟩) := by
  constructor
  · intro hc hcl
    unfold calculate_frechet_distance chooseCovmean finishFid
    simp [hnf, hc, hcl]
  · intro hc
    unfold calculate_frechet_distance chooseCovmean finishFid
    simp [hnf, hc]

/-- Witness for C4 (amended): `sqRetryCplx` escalates after the retry;
`sqBad` returns a non-finite score after the retry. -/
theorem claim4_witness :
    allFiniteB (sqRetryCplx (sigW * sigW)) = false ∧
    calculate_frechet_distance sqRetryCplx (fun _ => 0) sigW (fun _ => 0) sigW
        1 =
      Except.error (FidError.imaginaryComponent
        (maxAbsIm (sqRetryCplx (regularized sigW sigW 1)))) ∧
    calculate_frechet_distance sqBad (fun _ => 0) sigW (fun _ => 0) sigW 1 =
      Except.ok ⟨fidFormula (fun _ => 0) (fun _ => 0) sigW sigW
          (sqBad (regularized sigW sigW 1)).re,
        diagFiniteB (sqBad (regularized sigW sigW 1))⟩ :=
  ⟨allFiniteB_sqRetryCplx_first,
   (claim4_amended sqRetryCplx _ _ _ _ _ allFiniteB_sqRetryCplx_first).1
     isComplex_sqRetryCplx_retry allcloseDiagImB_sqRetryCplx_retry,
   (claim4_amended sqBad _ _ _ _ _ (allFiniteB_sqBad _)).2 rfl⟩

/-! Transposition lemmas for the symmetry claim. -/

theorem allFiniteB_transposeOut {n : ℕ} (s : SqrtmOut n) :
    allFiniteB s.transposeOut = allFiniteB s :=
  decide_eq_decide.mpr ⟨fun h i j => h j i, fun h i j => h j i⟩

theorem diagFiniteB_transposeOut {n : ℕ} (s : SqrtmOut n) :
    diagFiniteB s.transposeOut = diagFiniteB s :=
  decide_eq_decide.mpr Iff.rfl

theorem allcloseDiagImB_transposeOut {n : ℕ} (s : SqrtmOut n) :
    allcloseDiagImB s.transposeOut = allcloseDiagImB s :=
  decide_eq_decide.mpr Iff.rfl

theorem maxAbsIm_transposeOut {n : ℕ} (s : SqrtmOut n) :
    maxAbsIm s.transposeOut = maxAbsIm s := by
  unfold maxAbsIm
  exact congrArg _ (Finset.sup_comm _ _ _)

theorem vdot_sub_symm {n : ℕ} (a b : Fin n → ℚ) :
    vdot (a - b) (a - b) = vdot (b - a) (b - a) := by
  unfold vdot
  refine Finset.sum_congr rfl fun i _ => ?_
  simp only [Pi.sub_apply]
  ring

theorem fidFormula_swap {n : ℕ} (mu1 mu2 : Fin n → ℚ)
    (sigma1 sigma2 R : Matrix (Fin n) (Fin n) ℚ) :
    fidFormula mu2 mu1 sigma2 sigma1 R.transpose =
      fidFormula mu1 mu2 sigma1 sigma2 R := by
  unfold fidFormula
  rw [Matrix.trace_transpose, vdot_sub_symm mu2 mu1]
  ring

theorem finishFid_transposeOut {n : ℕ} (mu1 mu2 : Fin n → ℚ)
    (sigma1 sigma2 : Matrix (Fin n) (Fin n) ℚ) (s : SqrtmOut n) :
    finishFid mu2 mu1 sigma2 sigma1 s.transposeOut =
      finishFid mu1 mu2 sigma1 sigma2 s := by
  unfold finishFid
  rw [allcloseDiagImB_transposeOut, diagFiniteB_transposeOut,
    maxAbsIm_transposeOut]
  simp only [SqrtmOut.transposeOut]
  rw [fidFormula_swap]

theorem chooseCovmean_swap {n : ℕ}
    (sq : Matrix (Fin n) (Fin n) ℚ → SqrtmOut n)
    (sigma1 sigma2 : Matrix (Fin n) (Fin n) ℚ) (eps : ℚ)
    (h1 : sigma1.transpose = sigma1) (h2 : sigma2.transpose = sigma2)
    (hsq : ∀ M, sq M.transpose = (sq M).transposeOut) :
    chooseCovmean sq sigma2 sigma1 eps =
      (chooseCovmean sq sigma1 sigma2 eps).transposeOut := by
  have hprod : sigma2 * sigma1 = (sigma1 * sigma2).transpose := by
    rw [Matrix.transpose_mul, h1, h2]
  have hreg : regularized sigma2 sigma1 eps =
      (regularized sigma1 sigma2 eps).transpose := by
    unfold regularized
    rw [Matrix.transpose_mul, Matrix.transpose_add, Matrix.transpose_add,
      Matrix.transpose_smul, Matrix.transpose_one, h1, h2]
  simp only [chooseCovmean]
  rw [hprod, hreg, hsq, hsq, allFiniteB_transposeOut]
  exact (apply_ite SqrtmOut.transposeOut _ _ _).symm

/-- The constant oracle `sqReal1` commutes with transposition. -/
theorem sqReal1_transposeOut (M : Matrix (Fin 1) (Fin 1) ℚ) :
    sqReal1 M.transpose = (sqReal1 M).transposeOut := rfl

/-- C5: the distance function is symmetric: for symmetric covariance inputs
and a `sqrtm` oracle that commutes with transposition (a property of the
principal matrix square root), swapping the two Gaussian moment pairs leaves
the result unchanged (identical scores, identical errors). -/
theorem claim5_symmetry {n : ℕ}
    (sq : Matrix (Fin n) (Fin n) ℚ → SqrtmOut n)
    (mu1 mu2 : Fin n → ℚ) (sigma1 sigma2 : Matrix (Fin n) (Fin n) ℚ)
    (eps : ℚ)
    (h1 : sigma1.transpose = sigma1) (h2 : sigma2.transpose = sigma2)
    (hsq : ∀ M, sq M.transpose = (sq M).transposeOut) :
    calculate_frechet_distance sq mu1 sigma1 mu2 sigma2 eps =
      calculate_frechet_distance sq mu2 sigma2 mu1 sigma1 eps := by
  unfold calculate_frechet_distance
  rw [chooseCovmean_swap sq sigma1 sigma2 eps h1 h2 hsq,
    finishFid_transposeOut]

/-- Witness for C5: concrete symmetric covariances and a
transpose-equivariant oracle. -/
theorem claim5_witness :
    sigW.transpose = sigW ∧
    calculate_frechet_distance sqReal1 (fun _ => 1) sigW (fun _ => 5) sigW
        (1 / 1000000) =
      calculate_frechet_distance sqReal1 (fun _ => 5) sigW (fun _ => 1) sigW
        (1 / 1000000) :=
  ⟨rfl, claim5_symmetry sqReal1 _ _ _ _ _ rfl rfl sqReal1_transposeOut⟩

/-! Moment estimator lemmas for the uniform-weights claim. -/

theorem sum_const_fin {N : ℕ} (c : ℚ) : (∑ _i : Fin N, c) = (N : ℚ) * c := by
  rw [Finset.sum_const, Finset.card_univ, Fintype.card_fin, nsmul_eq_mul]

theorem np_average_uniform {N D : ℕ} (X : Fin N → Fin D → ℚ) (c : ℚ)
    (hc : c ≠ 0) : np_average X (fun _ => c) = np_mean X := by
  funext d
  unfold np_average np_mean
  rw [← Finset.mul_sum, sum_const_fin, mul_comm (N : ℚ) c,
    mul_div_mul_left _ _ hc]

theorem covFact_uniform {N : ℕ} (c : ℚ) (hc : c ≠ 0) (hN : N ≠ 0) :
    covFact (fun _ : Fin N => c) = c * ((N : ℚ) - 1) := by
  unfold covFact
  simp only [sum_const_fin]
  have hNc : (N : ℚ) * c ≠ 0 := mul_ne_zero (Nat.cast_ne_zero.mpr hN) hc
  rw [show (N : ℚ) * (c * c) = ((N : ℚ) * c) * c by ring,
    mul_div_cancel_left₀ c hNc]
  ring

theorem np_cov_aweights_uniform {N D : ℕ} (X : Fin N → Fin D → ℚ) (c : ℚ)
    (hc : c ≠ 0) : np_cov_aweights X (fun _ => c) = np_cov X := by
  funext j k
  unfold np_cov_aweights np_cov
  rw [np_average_uniform X c hc]
  rcases Nat.eq_zero_or_pos N with hN | hN
  · subst hN
    simp [covFact]
  · rw [covFact_uniform c hc hN.ne', ← Finset.mul_sum,
      mul_div_mul_left _ _ hc]

/-- C6: moment estimation with a uniform positive weight vector produces
exactly the unweighted mean and covariance, for every feature matrix. -/
theorem claim6_uniform_weights {N D : ℕ} (X : Fin N → Fin D → ℚ) (c : ℚ)
    (hc : 0 < c) :
    calculate_activation_statistics_moments X (some fun _ => c) =
      calculate_activation_statistics_moments X none := by
  have hc0 : c ≠ 0 := ne_of_gt hc
  show (np_average X (fun _ => c), np_cov_aweights X (fun _ => c)) =
    (np_mean X, np_cov X)
  rw [np_average_uniform X c hc0, np_cov_aweights_uniform X c hc0]

/-- Witness for C6 on a concrete 2×1 feature matrix with weight 2. -/
theorem claim6_witness :
    (0 : ℚ) < 2 ∧
    calculate_activation_statistics_moments
        (fun (i : Fin 2) (_ : Fin 1) => (i : ℚ)) (some fun _ => 2) =
      calculate_activation_statistics_moments
        (fun (i : Fin 2) (_ : Fin 1) => (i : ℚ)) none :=
  ⟨by norm_num, claim6_uniform_weights _ 2 (by norm_num)⟩

/-! Collector lemmas: sequential exact-fit slice writes fill the buffer with
the concatenation of the batch features. -/

theorem overwriteFrom_length {arr seg : List (List ℚ)} {start : ℕ}
    (h : start + seg.length ≤ arr.length) :
    (overwriteFrom arr start seg).length = arr.length := by
  unfold overwriteFrom
  simp only [List.length_append, List.length_take, List.length_drop]
  rw [min_eq_left (by omega : start ≤ arr.length)]
  omega

theorem overwriteFrom_take {arr seg : List (List ℚ)} {start : ℕ}
    (h : start ≤ arr.length) :
    (overwriteFrom arr start seg).take (start + seg.length) =
      arr.take start ++ seg := by
  have h1 : (arr.take start).length = start := by
    rw [List.length_take]
    exact min_eq_left h
  unfold overwriteFrom
  rw [List.append_assoc, List.take_append_eq_append_take,
    List.take_of_length_le (by rw [h1]; exact Nat.le_add_right _ _), h1,
    Nat.add_sub_cancel_left, List.take_left]

theorem accumulate_fold (images : ℕ) :
    ∀ (bfs : List (List (List ℚ))) (arr : List (List ℚ)) (start : ℕ),
      arr.length = start + (bfs.map List.length).sum →
      (bfs.foldl (accumStep images) (some arr, start)).1 =
        some (arr.take start ++ bfs.flatten) := by
  intro bfs
  induction bfs with
  | nil =>
    intro arr start h
    simp only [List.map_nil, List.sum_nil, Nat.add_zero] at h
    rw [List.foldl_nil, List.flatten_nil, List.append_nil, ← h,
      List.take_length]
  | cons bf rest ih =>
    intro arr start h
    simp only [List.map_cons, List.sum_cons] at h
    have hb : start + bf.length ≤ arr.length := by omega
    rw [List.foldl_cons]
    have hstep : accumStep images (some arr, start) bf =
        (some (overwriteFrom arr start bf), start + bf.length) := rfl
    rw [hstep, ih (overwriteFrom arr start bf) (start + bf.length)
      (by rw [overwriteFrom_length hb]; omega)]
    rw [overwriteFrom_take (le_trans (Nat.le_add_right _ _) hb)]
    rw [List.flatten_cons, ← List.append_assoc]

theorem accumulateBatches_eq (images : ℕ) (bfs : List (List (List ℚ)))
    (hne : bfs ≠ []) (hsum : (bfs.map List.length).sum = images) :
    accumulateBatches images bfs = some bfs.flatten := by
  cases bfs with
  | nil => exact absurd rfl hne
  | cons bf rest =>
    have hb : bf.length ≤ images := by
      simp only [List.map_cons, List.sum_cons] at hsum
      omega
    have harr : (List.replicate images ([] : List ℚ)).length = images :=
      List.length_replicate _ _
    unfold accumulateBatches
    rw [List.foldl_cons]
    have hstep : accumStep images ((none, 0) : Option (List (List ℚ)) × ℕ) bf =
        (some (overwriteFrom (List.replicate images ([] : List ℚ)) 0 bf),
          0 + bf.length) := rfl
    have hlen0 :
        (overwriteFrom (List.replicate images ([] : List ℚ)) 0 bf).length =
          0 + bf.length + (rest.map List.length).sum := by
      rw [overwriteFrom_length (by rw [harr]; omega), harr]
      simp only [List.map_cons, List.sum_cons] at hsum
      omega
    rw [hstep, accumulate_fold images rest _ _ hlen0,
      overwriteFrom_take (by rw [harr]; omega)]
    rw [List.take_zero, List.nil_append, List.flatten_cons]

theorem get_activations_eq {α : Type} (f : α → List ℚ) (images : ℕ)
    (batches : List (List α)) (hne : batches ≠ [])
    (hsum : (batches.map List.length).sum = images) :
    get_activations f images batches = some ((batches.flatten).map f) := by
  unfold get_activations
  have hne2 : batches.map (fun b => b.map f) ≠ [] := by
    simp only [ne_eq, List.map_eq_nil_iff]
    exact hne
  have h1 : ((batches.map fun b => b.map f).map List.length).sum = images := by
    rw [List.map_map, ← hsum]
    refine congrArg List.sum (List.map_congr_left fun b _ => ?_)
    exact List.length_map b f
  rw [accumulateBatches_eq images _ hne2 h1, List.map_flatten]

/-- C7 (amended): for any NONEMPTY finite sequence of batches whose sizes sum
to `total_count`, the collector returns the feature matrix whose rows are
exactly the per-sample extractor outputs in order (hence exactly
`total_count` rows), and the result depends only on the concatenation of the
batches: splitting one batch into two adjacent batches leaves it unchanged. -/
theorem claim7_collector {α : Type} (f : α → List ℚ) (images : ℕ)
    (batches : List (List α)) (hne : batches ≠ [])
    (hsum : (batches.map List.length).sum = images) :
    get_activations f images batches = some ((batches.flatten).map f) ∧
    ((batches.flatten).map f).length = images ∧
    (∀ (l r : List (List α)) (b1 b2 : List α),
      batches = l ++ (b1 ++ b2) :: r →
      get_activations f images (l ++ b1 :: b2 :: r) =
        get_activations f images batches) := by
  refine ⟨get_activations_eq f images batches hne hsum, ?_, ?_⟩
  · rw [List.length_map, List.length_flatten, hsum]
  · intro l r b1 b2 heq
    subst heq
    have hne2 : l ++ b1 :: b2 :: r ≠ [] := by cases l <;> simp
    have hsum2 : ((l ++ b1 :: b2 :: r).map List.length).sum = images := by
      rw [← hsum]
      simp only [List.map_append, List.sum_append, List.map_cons,
        List.sum_cons, List.length_append]
      omega
    rw [get_activations_eq f images _ hne2 hsum2,
      get_activations_eq f images _ hne hsum]
    refine congrArg some (congrArg (List.map f) ?_)
    simp [List.flatten_append, List.flatten_cons, List.append_assoc]

/-- C7 counterexample: the empty batch sequence has sizes summing to 0, yet
the collector returns no feature matrix at all (`none`) rather than a 0-row
matrix. -/
theorem claim7_counterexample :
    get_activations (fun q : ℚ => [q]) 0 ([] : List (List ℚ)) = none ∧
    ((([] : List (List ℚ)).map List.length).sum = 0) :=
  ⟨rfl, rfl⟩

/-- Witness for C7 (amended) on two concrete batches of sizes 1 and 2. -/
theorem claim7_witness :
    ([[(1 : ℚ)], [2, 3]] ≠ ([] : List (List ℚ))) ∧
    (([[(1 : ℚ)], [2, 3]].map List.length).sum = 3) ∧
    get_activations (fun q : ℚ => [q]) 3 [[1], [2, 3]] =
      some (([[(1 : ℚ)], [2, 3]].flatten).map fun q => [q]) :=
  ⟨by simp, rfl,
    (claim7_collector (fun q : ℚ => [q]) 3 [[1], [2, 3]] (by simp) rfl).1⟩

/-! Facade lemmas: the generator loop and the imputer loop. -/

theorem batchJoin_succ (feats : ℕ → List (List ℚ)) (i K : ℕ) :
    batchJoin feats i (K + 1) = feats i ++ batchJoin feats (i + 1) K := by
  unfold batchJoin
  rw [List.range_succ_eq_map, List.map_cons, List.flatten_cons, List.map_map]
  refine congrArg₂ (· ++ ·) (congrArg feats (Nat.add_zero i))
    (congrArg List.flatten (List.map_congr_left fun k _ => ?_))
  exact congrArg feats (by omega)

theorem batchJoin_zero (feats : ℕ → List (List ℚ)) (i : ℕ) :
    batchJoin feats i 0 = [] := rfl

theorem batchJoin_length {bs : ℕ} (feats : ℕ → List (List ℚ))
    (hlen : ∀ j, (feats j).length = bs) :
    ∀ (K i : ℕ), (batchJoin feats i K).length = K * bs := by
  intro K
  induction K with
  | zero => intro i; simp [batchJoin]
  | succ K ih =>
    intro i
    rw [batchJoin_succ, List.length_append, hlen, ih, Nat.succ_mul,
      Nat.add_comm]

theorem batchJoin_add (feats : ℕ → List (List ℚ)) (i K d : ℕ) :
    batchJoin feats i (K + d) =
      batchJoin feats i K ++ batchJoin feats (i + K) d := by
  unfold batchJoin
  rw [List.range_add, List.map_append, List.flatten_append, List.map_map]
  refine congrArg (_ ++ ·)
    (congrArg List.flatten (List.map_congr_left fun k _ => ?_))
  simp only [Function.comp_apply]
  exact congrArg feats (by omega)

theorem batchJoin_take_stable {bs : ℕ} (feats : ℕ → List (List ℚ))
    (hlen : ∀ j, (feats j).length = bs) (i t K K2 : ℕ)
    (ht : t ≤ K * bs) (hK : K ≤ K2) :
    (batchJoin feats i K2).take t = (batchJoin feats i K).take t := by
  obtain ⟨d, rfl⟩ := Nat.exists_eq_add_of_le hK
  rw [batchJoin_add, List.take_append_eq_append_take,
    batchJoin_length feats hlen, Nat.sub_eq_zero_of_le ht, List.take_zero,
    List.append_nil]

theorem dgGo_eq {bs n : ℕ} (feats : ℕ → List (List ℚ)) (hbs : 0 < bs)
    (hlen : ∀ j, (feats j).length = bs) :
    ∀ (fuel i count : ℕ) (acc : List (List ℚ)), n - count ≤ fuel →
      dgGo bs n feats fuel i count acc =
        acc ++ (batchJoin feats i n).take (n - count) := by
  intro fuel
  induction fuel with
  | zero =>
    intro i count acc hf
    have h0 : n - count = 0 := Nat.le_zero.mp hf
    simp only [dgGo]
    rw [h0, List.take_zero, List.append_nil]
  | succ fuel ih =>
    intro i count acc hf
    simp only [dgGo]
    by_cases hcn : count < n
    · rw [if_pos hcn]
      by_cases htr : n < count + bs
      · rw [if_pos htr]
        refine congrArg (acc ++ ·) ?_
        obtain ⟨m, rfl⟩ : ∃ m, n = m + 1 := ⟨n - 1, by omega⟩
        rw [batchJoin_succ feats i m,
          List.take_append_of_le_length (by rw [hlen i]; omega)]
      · rw [if_neg htr]
        rw [ih (i + 1) (count + bs) (acc ++ feats i) (by omega),
          List.append_assoc]
        refine congrArg (acc ++ ·) ?_
        have hcb : count + bs ≤ n := by omega
        obtain ⟨m, rfl⟩ : ∃ m, n = m + 1 := ⟨n - 1, by omega⟩
        rw [batchJoin_succ feats i m, List.take_append_eq_append_take,
          hlen i,
          List.take_of_length_le
            (show (feats i).length ≤ m + 1 - count by rw [hlen i]; omega)]
        refine congrArg (feats i ++ ·) ?_
        rw [← Nat.sub_sub]
        exact batchJoin_take_stable feats hlen (i + 1) (m + 1 - count - bs) m
          (m + 1) (le_trans (by omega) (Nat.le_mul_of_pos_right m hbs))
          (Nat.le_succ m)
    · rw [if_neg hcn]
      have h0 : n - count = 0 := by omega
      rw [h0, List.take_zero, List.append_nil]

theorem data_generator_fid_features_eq {bs n : ℕ}
    (feats : ℕ → List (List ℚ)) (hbs : 0 < bs)
    (hlen : ∀ j, (feats j).length = bs) :
    data_generator_fid_features bs n feats = (batchJoin feats 0 n).take n := by
  unfold data_generator_fid_features
  rw [dgGo_eq feats hbs hlen n 0 0 [] (by omega), List.nil_append,
    Nat.sub_zero]

theorem data_generator_fid_features_length {bs n : ℕ}
    (feats : ℕ → List (List ℚ)) (hbs : 0 < bs)
    (hlen : ∀ j, (feats j).length = bs) :
    (data_generator_fid_features bs n feats).length = n := by
  rw [data_generator_fid_features_eq feats hbs hlen, List.length_take,
    batchJoin_length feats hlen]
  exact min_eq_left (Nat.le_mul_of_pos_right n hbs)

theorem chunksFlatten {α : Type} (bs : ℕ) (data : List α) :
    ∀ K, K * bs ≤ data.length →
      ((List.range K).map fun k => (data.drop (k * bs)).take bs).flatten =
        data.take (K * bs) := by
  intro K
  induction K with
  | zero => intro _; simp
  | succ K ih =>
    intro h
    rw [Nat.succ_mul] at h ⊢
    rw [List.range_succ, List.map_append, List.flatten_append, ih (by omega),
      List.take_add]
    simp

theorem dataLoaderBatches_sizes {α : Type} (bs : ℕ) (data : List α)
    (hbs : 0 < bs) :
    ((dataLoaderBatches bs data).map List.length).sum =
      data.length / bs * bs := by
  unfold dataLoaderBatches
  rw [List.map_map]
  have h : ∀ k ∈ List.range (data.length / bs),
      (List.length ∘ fun k => (data.drop (k * bs)).take bs) k = bs := by
    intro k hk
    rw [List.mem_range] at hk
    have hle : (k + 1) * bs ≤ data.length := (Nat.le_div_iff_mul_le hbs).mp hk
    rw [Nat.succ_mul] at hle
    simp only [Function.comp_apply, List.length_take, List.length_drop]
    exact min_eq_left (by omega)
  rw [List.map_congr_left h, List.map_const', List.sum_replicate,
    List.length_range, smul_eq_mul]

theorem dataLoaderBatches_flatten {α : Type} (bs : ℕ) (data : List α) :
    (dataLoaderBatches bs data).flatten =
      data.take (data.length / bs * bs) := by
  unfold dataLoaderBatches
  exact chunksFlatten bs data (data.length / bs) (Nat.div_mul_le_self _ _)

theorem imputer_fid_features_eq {α : Type} (bs : ℕ) (g : α → List ℚ)
    (data : List α) (hbs : 0 < bs) (hdata : bs ≤ data.length) :
    imputer_fid_features bs g data =
      some ((data.take (data.length / bs * bs)).map g) := by
  unfold imputer_fid_features
  have hne : (dataLoaderBatches bs data).map (fun b => b.map g) ≠ [] := by
    simp only [ne_eq, List.map_eq_nil_iff, dataLoaderBatches,
      List.range_eq_nil]
    have h1 : 1 ≤ data.length / bs := (Nat.one_le_div_iff hbs).mpr hdata
    omega
  have hsum : (((dataLoaderBatches bs data).map fun b => b.map g).map
      List.length).sum = data.length / bs * bs := by
    rw [List.map_map, ← dataLoaderBatches_sizes bs data hbs]
    refine congrArg List.sum (List.map_congr_left fun b _ => ?_)
    exact List.length_map b g
  rw [accumulateBatches_eq _ _ hne hsum, ← dataLoaderBatches_flatten bs data,
    List.map_flatten]

/-- C8 (amended): the generator path accumulates exactly `n_samples` feature
rows — the first `n_samples` rows of the concatenated generated batches, so
the final batch is truncated to fit and the full sample budget is consumed
with no early termination; the imputation path accumulates feature rows for
exactly the `⌊N/batch_size⌋` full batches of the fixed population
(`⌊N/batch_size⌋·batch_size` rows) — the loader drops a final partial batch,
so the remaining `N mod batch_size` samples of the population are never
scored. -/
theorem claim8_full_budget {α : Type} (bs n : ℕ)
    (feats : ℕ → List (List ℚ)) (g : α → List ℚ) (data : List α)
    (hbs : 0 < bs) (hlen : ∀ j, (feats j).length = bs)
    (hdata : bs ≤ data.length) :
    data_generator_fid_features bs n feats = (batchJoin feats 0 n).take n ∧
    (data_generator_fid_features bs n feats).length = n ∧
    imputer_fid_features bs g data =
      some ((data.take (data.length / bs * bs)).map g) ∧
    ((data.take (data.length / bs * bs)).map g).length =
      data.length / bs * bs :=
  ⟨data_generator_fid_features_eq feats hbs hlen,
   data_generator_fid_features_length feats hbs hlen,
   imputer_fid_features_eq bs g data hbs hdata,
   by
     rw [List.length_map, List.length_take]
     exact min_eq_left (Nat.div_mul_le_self _ _)⟩

/-- C8 counterexample: with a fixed population of 3 samples and batch size 2
the imputation path accumulates only ⌊3/2⌋·2 = 2 feature rows, not 3 — the
final partial batch of the population is dropped, so the full fixed
population is not consumed. -/
theorem claim8_counterexample :
    imputer_fid_features 2 (fun q : ℚ => [q]) [0, 1, 2] = some [[0], [1]] ∧
    (2 : ℕ) ≠ ([0, 1, 2] : List ℚ).length := by
  exact ⟨rfl, by decide⟩

/-- Witness for C8 (amended) with batch size 2, sample budget 3 and a
population of 3 samples. -/
theorem claim8_witness :
    ((0 : ℕ) < 2 ∧ 2 ≤ ([0, 1, 2] : List ℚ).length) ∧
    data_generator_fid_features 2 3 (fun _ => [[1], [2]]) =
      (batchJoin (fun _ => [[1], [2]]) 0 3).take 3 ∧
    (data_generator_fid_features 2 3 (fun _ => [[1], [2]])).length = 3 ∧
    imputer_fid_features 2 (fun q : ℚ => [q]) [0, 1, 2] =
      some ((([0, 1, 2] : List ℚ).take (([0, 1, 2] : List ℚ).length / 2 * 2)).map
        fun q => [q]) ∧
    ((([0, 1, 2] : List ℚ).take (([0, 1, 2] : List ℚ).length / 2 * 2)).map
      fun q : ℚ => [q]).length = ([0, 1, 2] : List ℚ).length / 2 * 2 :=
  ⟨⟨by decide, by decide⟩,
    claim8_full_budget 2 3 (fun _ => [[1], [2]]) (fun q : ℚ => [q]) [0, 1, 2]
      (by decide) (fun _ => rfl) (by decide)⟩

/-! Reference statistics cache. -/

/-- C9 counterexample: a present persisted pair that is structurally invalid
for the current dimensionality (here `d = 2`) is loaded and used as-is; the
reference statistics are NOT recomputed. -/
theorem claim9_counterexample :
    loadOrComputeStats (some statsBad) statsGood = statsBad ∧
    ¬ statsValid 2 statsBad ∧ statsBad ≠ statsGood := by
  refine ⟨rfl, ?_, ?_⟩
  · intro h
    rcases h with ⟨h1, _⟩
    simp [statsBad] at h1
  · intro h
    simp [statsBad, statsGood, Prod.ext_iff] at h

/-- C9 (amended): on calls after the first, the persisted moment pair is
loaded and used whenever it is present, with no structural validation of its
dimensionality; only a missing file triggers recomputation from the
reference population. -/
theorem claim9_cache_behaviour (stored computed : List ℚ × List (List ℚ)) :
    loadOrComputeStats (some stored) computed = stored ∧
    loadOrComputeStats none computed = computed :=
  ⟨rfl, rfl⟩

/-- C10: a batch source producing no batches makes the collector return
`none` rather than an empty matrix or an error, for every declared total
sample count. -/
theorem claim10_empty_collector {α : Type} (f : α → List ℚ) (images : ℕ) :
    get_activations f images [] = none := rfl

end MisganFid
